import Mathlib

/-!
Shallow embedding of `src/main.py` (birdmanTV timeline visualizer).

Times and durations are modelled as rationals (`ℚ`): the script reads
numeric durations from a spreadsheet and only ever adds, subtracts,
compares and halves them, so exact rational arithmetic captures the
computations the claims are about.

Substring containment (`pandas.Series.str.contains` with a plain
pattern, Python's `in`) is modelled by an executable infix test over
the character lists of the strings.
-/

namespace Timeline

/-- `listStartsWith n h` : the char list `n` is a prefix of `h`
(Python-style string matching helper). -/
def listStartsWith : List Char → List Char → Bool
  | [], _ => true
  | _ :: _, [] => false
  | a :: as, b :: bs => a == b && listStartsWith as bs

/-- `listHasSub n h` : the char list `n` occurs contiguously inside `h`. -/
def listHasSub (n : List Char) : List Char → Bool
  | [] => listStartsWith n []
  | h :: rest => listStartsWith n (h :: rest) || listHasSub n rest

/-- `strContains hay needle` models Python `needle in hay` /
`Series.str.contains(needle)` for a literal pattern. -/
def strContains (hay needle : String) : Bool :=
  listHasSub needle.data hay.data

/-- Python `not s.strip()`: the string contains no non-whitespace
character (used by the labeling filter in `generate`). -/
def isBlank (s : String) : Bool :=
  s.data.all Char.isWhitespace

/-! ## Color classification (`get_color`, main.py:99-112) -/

/-- `get_color(dept, note)` from main.py:99-112 (the `or ""` defaulting
is a no-op here because column values are already strings). -/
def get_color (dept note : String) : String :=
  if strContains dept "人力" then
    if strContains note "VTR" then "#2fa0fc" else "#b3e9f8"
  else if strContains dept "滑空" then
    if strContains note "VTR" then "#00d65b" else "#cbf266"
  else "#c8c8cb"

/-- The color actually used for a bar (main.py:269-271): `get_color`,
overridden with "#9a9a9a" when the row is commercial-flagged. -/
def segColor (dept note : String) (is_cm : Bool) : String :=
  if is_cm then "#9a9a9a" else get_color dept note

/-! ## Row builder (`process_sheet`, main.py:115-141) -/

/-- One raw spreadsheet row after the column-presence guarantee and
`pd.to_numeric(..., errors="coerce")`: `dur = none` models a value the
numeric coercion turned into NaN; string columns are the values after
`fillna("").astype(str)`. -/
structure RawRow where
  dur : Option ℚ
  team : String
  dept : String
  remark : String
deriving DecidableEq

/-- A row that survived `dropna` and the `尺 > 0` filter. -/
structure CleanRow where
  dur : ℚ
  team : String
  dept : String
  remark : String
deriving DecidableEq

/-- The cleaning step of `process_sheet` (main.py:120-124): drop rows
whose duration failed coercion or is not strictly positive. -/
def toClean? (r : RawRow) : Option CleanRow :=
  match r.dur with
  | none => none
  | some d => if 0 < d then some ⟨d, r.team, r.dept, r.remark⟩ else none

def clean (rows : List RawRow) : List CleanRow :=
  rows.filterMap toClean?

/-- `mask_cm` (main.py:129-133): team, remark or department contains
"CM". -/
def isCM (r : CleanRow) : Bool :=
  strContains r.team "CM" || strContains r.remark "CM" || strContains r.dept "CM"

/-- `is_digest` (main.py:140): remark contains "ダイジェスト". -/
def isDigest (r : CleanRow) : Bool :=
  strContains r.remark "ダイジェスト"

/-- One processed segment: the columns of the dataframe returned by
`process_sheet` (`end` is spelled `stop`, `end` being a keyword). -/
structure Segment where
  dur : ℚ
  team : String
  dept : String
  remark : String
  start : ℚ
  stop : ℚ
  is_cm : Bool
  is_digest : Bool
deriving DecidableEq

/-- The segment built from a clean row whose exclusive prefix sum of
durations is `t`. -/
def segOf (t : ℚ) (r : CleanRow) : Segment :=
  ⟨r.dur, r.team, r.dept, r.remark, t, t + r.dur, isCM r, isDigest r⟩

/-- Offsets (main.py:138-139): `start = cumsum(尺) - 尺` is the
exclusive prefix sum of durations, threaded here as the running total
`t`; `end = start + 尺`. -/
def withOffsets (t : ℚ) : List CleanRow → List Segment
  | [] => []
  | r :: rest => segOf t r :: withOffsets (t + r.dur) rest

/-- `process_sheet` (main.py:115-141): clean, optionally drop
commercial rows (before offsets are computed), then compute offsets
and flags. -/
def processSheet (rows : List RawRow) (include_cm : Bool) : List Segment :=
  let cl := clean rows
  let cl2 := if include_cm then cl else cl.filter (fun r => !(isCM r))
  withOffsets 0 cl2

/-! ## Team merge (`generate`, main.py:295-315) -/

/-- One step-state pass of the team-merge loop. `cur` is the open run
`(cur_team, cur_s, cur_e)`, `none` when no run is open. A digest or
commercial segment closes the run without opening one; an equal team
extends; otherwise the run is closed and a new one opened. At the end
the open run is appended only when `cur_team` is truthy, i.e. a
non-empty string (`if cur_team:` at main.py:314). -/
def mergeTeamsAux (cur : Option (String × ℚ × ℚ)) : List Segment → List (String × ℚ × ℚ)
  | [] =>
    match cur with
    | none => []
    | some (t, s, e) => if t = "" then [] else [(t, s, e)]
  | r :: rest =>
    if r.is_digest then
      match cur with
      | none => mergeTeamsAux none rest
      | some c => c :: mergeTeamsAux none rest
    else if r.is_cm then
      match cur with
      | none => mergeTeamsAux none rest
      | some c => c :: mergeTeamsAux none rest
    else
      match cur with
      | none => mergeTeamsAux (some (r.team, r.start, r.stop)) rest
      | some (t, s, e) =>
        if r.team = t then mergeTeamsAux (some (t, s, r.stop)) rest
        else (t, s, e) :: mergeTeamsAux (some (r.team, r.start, r.stop)) rest

/-- The merged team spans of a segment sequence (main.py:295-315). -/
def mergeTeams (segs : List Segment) : List (String × ℚ × ℚ) :=
  mergeTeamsAux none segs

/-! ## Digest merge (`generate`, main.py:318-331) -/

/-- Inner scan of the digest-merge `while` loop: starting after a
digest segment whose end is `e`, with `k` members so far, extend the
group over further consecutive digest segments. Returns (end of last
member, member count, remaining segments). -/
def digestRun (e : ℚ) (k : ℕ) : List Segment → ℚ × ℕ × List Segment
  | [] => (e, k, [])
  | r :: rest =>
    if r.is_digest then digestRun r.stop (k + 1) rest else (e, k, r :: rest)

theorem digestRun_length_le (e : ℚ) (k : ℕ) :
    ∀ l : List Segment, (digestRun e k l).2.2.length ≤ l.length := by
  intro l
  induction l generalizing e k with
  | nil => simp [digestRun]
  | cons r rest ih =>
    by_cases h : r.is_digest = true
    · simpa [digestRun, h] using Nat.le_succ_of_le (ih r.stop (k + 1))
    · simp [digestRun, h]

/-- `digest_groups` (main.py:318-331): each maximal run of consecutive
digest-flagged segments becomes `(start of first, end of last, count)`;
non-digest segments break the group. -/
def digestGroups : List Segment → List (ℚ × ℚ × ℕ)
  | [] => []
  | r :: rest =>
    if r.is_digest then
      let g := digestRun r.stop 1 rest
      (r.start, g.1, g.2.1) :: digestGroups g.2.2
    else digestGroups rest
termination_by l => l.length
decreasing_by
  · exact Nat.lt_succ_of_le (digestRun_length_le r.stop 1 rest)
  · simp

/-! ## Label-fit decision (`need_sec` and the team loop, main.py:340-363) -/

/-- `need_sec(label)` (main.py:340-345). The rendered pixel width of
the label text (`bb.width`) is an external font-metric value; it is
modelled as a parameter `tw : String → ℚ`, and `spp` is
`sec_per_px = 7200 / fig_w_px` (main.py:335-338). -/
def needSec (tw : String → ℚ) (spp : ℚ) (label : String) : ℚ :=
  tw label * spp + 6

/-- A label drawn centered inside its bar. -/
structure InsideLabel where
  label : String
  x : ℚ
deriving DecidableEq

/-- An entry of `row_outside` (main.py:355-363): a label that did not
fit inside its bar. `style` is `none` for team labels, `some "italic"`
for digest labels. -/
structure OutsideItem where
  label : String
  anchor_x : ℚ
  pref_x : ℚ
  width : ℚ
  style : Option String
deriving DecidableEq

/-- The team-label loop of `generate` (main.py:348-363): blank teams
are skipped; a span longer than `need_sec` gets an inside label at the
span midpoint; otherwise an `OutsideItem` is queued with anchor at the
midpoint, preferred x `e + 6` and width `need_sec`. -/
def labelActions (tw : String → ℚ) (spp : ℚ) :
    List (String × ℚ × ℚ) → List InsideLabel × List OutsideItem
  | [] => ([], [])
  | (team, s, e) :: rest =>
    if isBlank team then labelActions tw spp rest
    else if e - s > needSec tw spp team then
      let p := labelActions tw spp rest
      (⟨team, (s + e) / 2⟩ :: p.1, p.2)
    else
      let p := labelActions tw spp rest
      (p.1, ⟨team, (s + e) / 2, e + 6, needSec tw spp team, none⟩ :: p.2)

/-! ## Outside-label layout (`draw_row_outside_labels` / `place_band`,
main.py:150-259) -/

/-- A placed outside label: lane index (0 = nearest the bar) and the
final left edge `x`; `width` is carried along so that lane occupancy
can be stated. The vertical position is `base_y + direction * lane *
lane_spacing`, a function of `lane` alone, so lane indices stand in
for y-coordinates. -/
structure Placement where
  label : String
  x : ℚ
  lane : ℕ
  width : ℚ
deriving DecidableEq

/-- The inner lane scan of `place_band` (main.py:183-219): find the
first lane whose `x_try = max x0 (lane_end + min_gap)` still fits
before the right margin; return its index and `x_try`. `min_gap = 10`
and `right_margin = 12` are the constants of main.py:172-173. -/
def findLane (x0 w xmax : ℚ) : List ℚ → Option (ℕ × ℚ)
  | [] => none
  | endx :: rest =>
    let xt := max x0 (endx + 10)
    if xt ≤ xmax - w - 12 then some (0, xt)
    else (findLane x0 w xmax rest).map (fun p => (p.1 + 1, p.2))

/-- `place_band` (main.py:167-254) for one band: thread the `lane_end`
list through the items; each item is placed in the first fitting lane
at `x_try` (main.py:183-219), or in a fresh lane at its clamped
preferred position `x0` when no lane fits (main.py:220-254).
`left_margin = 8`, `right_margin = 12` (main.py:173). Returns the
final lane state and the placements in placement order. -/
def placeBand (xmin xmax : ℚ) : List ℚ → List OutsideItem → List ℚ × List Placement
  | lanes, [] => (lanes, [])
  | lanes, d :: rest =>
    let w := d.width
    let x0 := max (xmin + 8) (min d.pref_x (xmax - w - 12))
    match findLane x0 w xmax lanes with
    | some (i, xt) =>
      let p := placeBand xmin xmax (lanes.set i (xt + w)) rest
      (p.1, ⟨d.label, xt, i, w⟩ :: p.2)
    | none =>
      let p := placeBand xmin xmax (lanes ++ [x0 + w]) rest
      (p.1, ⟨d.label, x0, lanes.length, w⟩ :: p.2)

/-- The alternating top/bottom split of main.py:159-161: even sorted
positions go to the top band, odd ones to the bottom band. -/
def splitAlt : List OutsideItem → List OutsideItem × List OutsideItem
  | [] => ([], [])
  | d :: rest =>
    let p := splitAlt rest
    (d :: p.2, p.1)

/-- `draw_row_outside_labels` (main.py:150-259), layout part: sort the
queued items by anchor x (Python's stable `sorted`), split alternately
into the two bands, and run `place_band` on each band independently
(each with its own fresh `lane_end`). Returns all placements, top band
first. -/
def rowLayout (xmin xmax : ℚ) (items : List OutsideItem) : List Placement :=
  let sorted := items.mergeSort (fun a b => a.anchor_x ≤ b.anchor_x)
  let bands := splitAlt sorted
  (placeBand xmin xmax [] bands.1).2 ++ (placeBand xmin xmax [] bands.2).2

/-! ## Spec-side definitions (refinement targets)

These follow the spec's words, not the code, and exist only to be
compared with the code-derived definitions above. -/

/-- Modelled from the spec (§4.2): extend a team run with label `t`
over further consecutive segments that share team `t` and are neither
digest- nor commercial-flagged; `e` is the end of the last member so
far. Returns (end of last member, remaining segments). -/
def extendRun (t : String) (e : ℚ) : List Segment → ℚ × List Segment
  | [] => (e, [])
  | r :: rest =>
    if r.is_digest = false ∧ r.is_cm = false ∧ r.team = t then
      extendRun t r.stop rest
    else (e, r :: rest)

theorem extendRun_length_le (t : String) (e : ℚ) :
    ∀ l : List Segment, (extendRun t e l).2.length ≤ l.length := by
  intro l
  induction l generalizing e with
  | nil => simp [extendRun]
  | cons r rest ih =>
    by_cases h : r.is_digest = false ∧ r.is_cm = false ∧ r.team = t
    · simpa [extendRun, h] using Nat.le_succ_of_le (ih r.stop)
    · simp [extendRun, h]

/-- Modelled from the spec (§4.2, §8): the maximal consecutive
sub-sequences of segments sharing one non-blank team label, none of
whose members is digest- or commercial-flagged, each recorded as
(team, start of first member, end of last member), in order. -/
def teamRunsSpec : List Segment → List (String × ℚ × ℚ)
  | [] => []
  | r :: rest =>
    if r.is_digest = true ∨ r.is_cm = true ∨ r.team = "" then teamRunsSpec rest
    else
      let g := extendRun r.team r.stop rest
      (r.team, r.start, g.1) :: teamRunsSpec g.2
termination_by l => l.length
decreasing_by
  · simp
  · exact Nat.lt_succ_of_le (extendRun_length_le r.team r.stop rest)

/-- Modelled from the spec (§4.2, §8): scan in order; every maximal
run of consecutive digest-flagged segments (the head and the longest
digest-flagged prefix of what follows) becomes one group recording
(start of the first member, end of the last member, count of members);
a non-digest segment breaks the group; team labels play no part. -/
def digestRunsSpec : List Segment → List (ℚ × ℚ × ℕ)
  | [] => []
  | r :: rest =>
    if r.is_digest then
      let run := rest.takeWhile (fun s => s.is_digest)
      (r.start, (run.map Segment.stop).getLastD r.stop, run.length + 1)
        :: digestRunsSpec (rest.dropWhile (fun s => s.is_digest))
    else digestRunsSpec rest
termination_by l => l.length
decreasing_by
  · exact Nat.lt_succ_of_le
      (List.dropWhile_sublist (p := fun s => s.is_digest) (l := rest)).length_le
  · simp

/-- Modelled from the spec (§4.3): commercial overrides everything
with the darker gray; else the (department, remark) lookup table:
human-powered (人力) → bright blue with VTR else pale blue; glider
(滑空) → bright green with VTR else pale green; otherwise neutral
gray. -/
def colorSpec (dept note : String) (is_cm : Bool) : String :=
  if is_cm then "#9a9a9a"
  else if strContains dept "人力" then
    if strContains note "VTR" then "#2fa0fc" else "#b3e9f8"
  else if strContains dept "滑空" then
    if strContains note "VTR" then "#00d65b" else "#cbf266"
  else "#c8c8cb"

/-! ## Offset lemmas (`withOffsets`) -/

theorem withOffsets_stop_eq :
    ∀ (l : List CleanRow) (t : ℚ), ∀ seg ∈ withOffsets t l,
      seg.stop = seg.start + seg.dur := by
  intro l
  induction l with
  | nil => intro t seg h; simp [withOffsets] at h
  | cons r rest ih =>
    intro t seg h
    rcases (by simpa [withOffsets] using h :
        seg = segOf t r ∨ seg ∈ withOffsets (t + r.dur) rest) with h' | h'
    · subst h'; rfl
    · exact ih (t + r.dur) seg h'

theorem withOffsets_start_eq :
    ∀ (l : List CleanRow) (i : ℕ) (t : ℚ) (seg : Segment),
      (withOffsets t l)[i]? = some seg →
      seg.start = t + (((withOffsets t l).take i).map Segment.dur).sum := by
  intro l
  induction l with
  | nil => intro i t seg h; simp [withOffsets] at h
  | cons r rest ih =>
    intro i t seg h
    cases i with
    | zero =>
      have h0 : seg = segOf t r := by
        have := h
        simp [withOffsets] at this
        exact this.symm
      subst h0; simp [segOf]
    | succ i =>
      rw [withOffsets] at h
      simp only [List.getElem?_cons_succ] at h
      have hrec := ih i (t + r.dur) seg h
      rw [withOffsets]
      simp only [List.take_succ_cons, List.map_cons, List.sum_cons]
      rw [hrec]; simp [segOf]; ring

/-- C1: for every sheet processed by `process_sheet`, the segment
sequence satisfies `end[i] = start[i] + duration[i]`, `start[0] = 0`,
`start[i]` is the sum of the durations of rows `0..i-1` (exclusive
cumulative sum), and consecutive segments are contiguous:
`start[i+1] = end[i]` (no gaps, no overlaps). -/
theorem processSheet_offsets (rows : List RawRow) (inc : Bool) :
    (∀ seg ∈ processSheet rows inc, seg.stop = seg.start + seg.dur) ∧
    (∀ seg, (processSheet rows inc)[0]? = some seg → seg.start = 0) ∧
    (∀ i seg, (processSheet rows inc)[i]? = some seg →
      seg.start = (((processSheet rows inc).take i).map Segment.dur).sum) ∧
    (∀ i a b, (processSheet rows inc)[i]? = some a →
      (processSheet rows inc)[i+1]? = some b → b.start = a.stop) := by
  have hmem : ∀ seg ∈ processSheet rows inc, seg.stop = seg.start + seg.dur := by
    intro seg h
    exact withOffsets_stop_eq _ 0 seg (by simpa [processSheet] using h)
  have hsum : ∀ i seg, (processSheet rows inc)[i]? = some seg →
      seg.start = (((processSheet rows inc).take i).map Segment.dur).sum := by
    intro i seg h
    have := withOffsets_start_eq _ i 0 seg (by simpa [processSheet] using h)
    simpa [processSheet] using this
  refine ⟨hmem, ?_, hsum, ?_⟩
  · intro seg h
    simpa using hsum 0 seg h
  · intro i a b ha hb
    have hbs := hsum (i + 1) b hb
    have has := hsum i a ha
    have htake : (processSheet rows inc).take (i + 1) =
        (processSheet rows inc).take i ++ [a] := by
      rw [List.take_succ, ha]; rfl
    have hmema : a ∈ processSheet rows inc := by
      rcases List.getElem?_eq_some.mp ha with ⟨hlt, hget⟩
      exact hget ▸ List.getElem_mem hlt
    rw [hbs, htake, List.map_append, List.sum_append, ← has]
    simp [hmem a hmema]

def c1rows : List RawRow :=
  [⟨some 5, "A", "", ""⟩, ⟨some 3, "B", "", ""⟩]

def c1seg0 : Segment := segOf 0 ⟨5, "A", "", ""⟩

def c1seg1 : Segment := segOf (0 + 5) ⟨3, "B", "", ""⟩

theorem processSheet_offsets_witness :
    (processSheet c1rows true)[0]? = some c1seg0 ∧
    (processSheet c1rows true)[1]? = some c1seg1 ∧
    c1seg0.start = 0 ∧ c1seg1.start = c1seg0.stop :=
  ⟨rfl, rfl,
    (processSheet_offsets c1rows true).2.1 c1seg0 rfl,
    (processSheet_offsets c1rows true).2.2.2 0 c1seg0 c1seg1 rfl rfl⟩

/-- C7: the bar color is a deterministic pure function of
(department, remark, is-commercial), equal pointwise to the spec's
lookup table `colorSpec`: 人力 (human-powered) → #2fa0fc with VTR else
#b3e9f8; 滑空 (glider) → #00d65b with VTR else #cbf266; otherwise
#c8c8cb; commercial segments override everything with #9a9a9a. -/
theorem segColor_eq_colorSpec :
    ∀ (dept note : String) (cm : Bool), segColor dept note cm = colorSpec dept note cm := by
  intro d n cm
  cases cm <;> simp [segColor, colorSpec, get_color]

def c5rows : List RawRow :=
  [⟨some 600, "A", "", ""⟩, ⟨some 300, "A", "", ""⟩, ⟨some 100, "B", "", "CM"⟩]

/-- C5: with `include_commercials = false` the commercial row of the
sheet [600/"A", 300/"A", 100/"B" commercial] is dropped before offsets
are computed: the merged team spans are exactly [("A", 0, 900)] and
the timeline totals 900 seconds (last end = 900), whereas keeping
commercials would total 1000. -/
theorem c5_commercials_excluded :
    mergeTeams (processSheet c5rows false) = [("A", 0, 900)] ∧
    ((processSheet c5rows false).map Segment.dur).sum = 900 ∧
    ((processSheet c5rows false).getLast?).map Segment.stop = some 900 ∧
    ((processSheet c5rows true).map Segment.dur).sum = 1000 := by
  have h : processSheet c5rows false =
      [segOf 0 ⟨600, "A", "", ""⟩, segOf (0 + 600) ⟨300, "A", "", ""⟩] := rfl
  have h2 : processSheet c5rows true =
      [segOf 0 ⟨600, "A", "", ""⟩, segOf (0 + 600) ⟨300, "A", "", ""⟩,
        segOf (0 + 600 + 300) ⟨100, "B", "", "CM"⟩] := rfl
  refine ⟨?_, ?_, ?_, ?_⟩
  · rw [h]
    simp +decide [mergeTeams, mergeTeamsAux, segOf, isCM, isDigest]
    norm_num
  · rw [h]; simp [segOf]; norm_num
  · rw [h]; simp [segOf]; norm_num
  · rw [h2]; simp [segOf]; norm_num

/-! ## Digest merge lemmas -/

theorem digestRun_spec :
    ∀ (l : List Segment) (e : ℚ) (k : ℕ),
      (digestRun e k l).2.1 = k + (l.takeWhile (fun s => s.is_digest)).length ∧
      (digestRun e k l).2.2 = l.dropWhile (fun s => s.is_digest) := by
  intro l
  induction l with
  | nil => intro e k; simp [digestRun]
  | cons r rest ih =>
    intro e k
    by_cases h : r.is_digest = true
    · have := ih r.stop (k + 1)
      simp only [digestRun, h, if_true, List.takeWhile_cons, List.dropWhile_cons]
      simp [h, this.1, this.2]
      omega
    · simp [digestRun, h, List.takeWhile_cons, List.dropWhile_cons]

theorem digestRun_end :
    ∀ (l : List Segment) (e : ℚ) (k : ℕ),
      (digestRun e k l).1
        = ((l.takeWhile (fun s => s.is_digest)).map Segment.stop).getLastD e := by
  intro l
  induction l with
  | nil => intro e k; simp [digestRun]
  | cons r rest ih =>
    intro e k
    by_cases h : r.is_digest = true
    · rw [digestRun, if_pos h, ih r.stop (k + 1),
        List.takeWhile_cons_of_pos (by simpa using h), List.map_cons,
        List.getLastD_cons]
    · rw [digestRun, if_neg h, List.takeWhile_cons_of_neg (by simpa using h)]
      rfl

theorem digestGroups_count_aux :
    ∀ (n : ℕ) (l : List Segment), l.length ≤ n →
      ((digestGroups l).map (fun g => g.2.2)).sum
        = (l.filter (fun s => s.is_digest)).length := by
  intro n
  induction n with
  | zero =>
    intro l hl
    have : l = [] := List.length_eq_zero.mp (Nat.le_zero.mp hl)
    subst this
    simp [digestGroups]
  | succ n ih =>
    intro l hl
    cases l with
    | nil => simp [digestGroups]
    | cons r rest =>
      by_cases h : r.is_digest = true
      · have hrun := digestRun_spec rest r.stop 1
        have hdrop_le : (rest.dropWhile (fun s => s.is_digest)).length ≤ n := by
          have := (List.dropWhile_sublist (l := rest)
            (p := fun s => s.is_digest)).length_le
          have hr : rest.length ≤ n := Nat.le_of_succ_le_succ (by simpa using hl)
          omega
        have hih := ih _ hdrop_le
        have hsplit :
            (rest.filter (fun s => s.is_digest)).length
              = (rest.takeWhile (fun s => s.is_digest)).length
                + ((rest.dropWhile (fun s => s.is_digest)).filter
                    (fun s => s.is_digest)).length := by
          conv_lhs => rw [← List.takeWhile_append_dropWhile
            (p := fun s => s.is_digest) (l := rest)]
          rw [List.filter_append, List.length_append]
          congr 1
          rw [List.filter_eq_self.mpr]
          intro a ha
          exact List.mem_takeWhile_imp ha
        rw [digestGroups]
        simp only [h, if_true, List.map_cons, List.sum_cons, hrun.1, hrun.2, hih,
          List.filter_cons, h]
        simp [hsplit]
        omega
      · have hr : rest.length ≤ n := Nat.le_of_succ_le_succ (by simpa using hl)
        rw [digestGroups, if_neg h]
        rw [ih rest hr]
        simp [List.filter_cons, h]

theorem digestGroups_eq_spec_aux :
    ∀ (n : ℕ) (l : List Segment), l.length ≤ n →
      digestGroups l = digestRunsSpec l := by
  intro n
  induction n with
  | zero =>
    intro l h
    have : l = [] := List.length_eq_zero.mp (Nat.le_zero.mp h)
    subst this
    simp [digestGroups, digestRunsSpec]
  | succ n ih =>
    intro l h
    cases l with
    | nil => simp [digestGroups, digestRunsSpec]
    | cons r rest =>
      have hr : rest.length ≤ n := Nat.le_of_succ_le_succ (by simpa using h)
      by_cases hd : r.is_digest = true
      · have hrun := digestRun_spec rest r.stop 1
        have hend := digestRun_end rest r.stop 1
        have hdrop_le : (rest.dropWhile (fun s => s.is_digest)).length ≤ n := by
          have := (List.dropWhile_sublist (l := rest)
            (p := fun s => s.is_digest)).length_le
          omega
        rw [digestGroups, digestRunsSpec]
        simp only [hd, if_true]
        rw [hrun.1, hrun.2, hend, ih _ hdrop_le]
        simp [Nat.add_comm]
      · rw [digestGroups, if_neg hd, digestRunsSpec, if_neg hd]
        exact ih rest hr

/-- C6: the digest merge groups every maximal run of consecutive
digest-flagged segments into one group recording (start of the first
member, end of the last member, count of members), ignoring team
labels entirely, with non-digest segments breaking the group: for
every segment sequence `digestGroups` equals the spec-side
`digestRunsSpec`; consequently the counts sum to the number of
digest-flagged segments; and in particular three consecutive digest
segments of durations 50,50,50 starting at t=1000, flanked by
non-digest segments, give the single group (1000, 1150, 3) for every
choice of team labels. -/
theorem digestGroups_spec :
    (∀ l : List Segment, digestGroups l = digestRunsSpec l) ∧
    (∀ l : List Segment,
      ((digestGroups l).map (fun g => g.2.2)).sum
        = (l.filter (fun s => s.is_digest)).length) ∧
    (∀ t1 t2 t3 : String,
      digestGroups
        [⟨1000, "X", "", "", 0, 1000, false, false⟩,
         ⟨50, t1, "", "", 1000, 1050, false, true⟩,
         ⟨50, t2, "", "", 1050, 1100, false, true⟩,
         ⟨50, t3, "", "", 1100, 1150, false, true⟩,
         ⟨50, "Y", "", "", 1150, 1200, false, false⟩]
        = [(1000, 1150, 3)]) := by
  refine ⟨?_, ?_, ?_⟩
  · intro l
    exact digestGroups_eq_spec_aux l.length l le_rfl
  · intro l
    exact digestGroups_count_aux l.length l le_rfl
  · intro t1 t2 t3
    simp [digestGroups, digestRun]

/-- C10: with `include_commercials = false`, commercial rows are
removed before offsets and merging, so two digest rows separated only
by a commercial row in the raw sheet become adjacent and merge into
one digest group of count 2 (the removed commercial row is not
counted); with `include_commercials = true` the same sheet yields two
separate digest groups (the commercial segment breaks the run). -/
theorem commercial_removed_before_digest_merge :
    ∀ d1 dc d2 : ℚ, 0 < d1 → 0 < dc → 0 < d2 →
      digestGroups (processSheet
          [⟨some d1, "A", "", "ダイジェスト"⟩, ⟨some dc, "CM", "", ""⟩,
           ⟨some d2, "B", "", "ダイジェスト"⟩] false)
        = [(0, d1 + d2, 2)] ∧
      digestGroups (processSheet
          [⟨some d1, "A", "", "ダイジェスト"⟩, ⟨some dc, "CM", "", ""⟩,
           ⟨some d2, "B", "", "ダイジェスト"⟩] true)
        = [(0, d1, 1), (d1 + dc, d1 + dc + d2, 1)] := by
  intro d1 dc d2 h1 h2 h3
  have hfalse : processSheet
      [⟨some d1, "A", "", "ダイジェスト"⟩, ⟨some dc, "CM", "", ""⟩,
       ⟨some d2, "B", "", "ダイジェスト"⟩] false
      = [segOf 0 ⟨d1, "A", "", "ダイジェスト"⟩,
         segOf (0 + d1) ⟨d2, "B", "", "ダイジェスト"⟩] := by
    simp +decide [processSheet, clean, toClean?, withOffsets, isCM, h1, h2, h3]
  have htrue : processSheet
      [⟨some d1, "A", "", "ダイジェスト"⟩, ⟨some dc, "CM", "", ""⟩,
       ⟨some d2, "B", "", "ダイジェスト"⟩] true
      = [segOf 0 ⟨d1, "A", "", "ダイジェスト"⟩,
         segOf (0 + d1) ⟨dc, "CM", "", ""⟩,
         segOf (0 + d1 + dc) ⟨d2, "B", "", "ダイジェスト"⟩] := by
    simp [processSheet, clean, toClean?, withOffsets, h1, h2, h3]
  constructor
  · rw [hfalse]
    simp +decide [digestGroups, digestRun, segOf, isDigest, isCM]
  · rw [htrue]
    simp +decide [digestGroups, digestRun, segOf, isDigest, isCM]

theorem commercial_removed_before_digest_merge_witness :
    (0:ℚ) < 50 ∧ (0:ℚ) < 100 ∧
    digestGroups (processSheet
        [⟨some 50, "A", "", "ダイジェスト"⟩, ⟨some 100, "CM", "", ""⟩,
         ⟨some 50, "B", "", "ダイジェスト"⟩] false)
      = [(0, (50:ℚ) + 50, 2)] :=
  ⟨by norm_num, by norm_num,
    (commercial_removed_before_digest_merge 50 100 50
      (by norm_num) (by norm_num) (by norm_num)).1⟩

/-! ## Team merge lemmas -/

/-- Restriction of a merged-span list to non-empty team labels (the
runs the claim is about; blank ones are invisible downstream). -/
def keepNonEmpty : List (String × ℚ × ℚ) → List (String × ℚ × ℚ)
  | [] => []
  | p :: l => if p.1 = "" then keepNonEmpty l else p :: keepNonEmpty l

theorem mergeTeamsAux_blank :
    ∀ (segs : List Segment) (s e : ℚ),
      keepNonEmpty (mergeTeamsAux (some ("", s, e)) segs)
        = keepNonEmpty (mergeTeamsAux none segs) := by
  intro segs
  induction segs with
  | nil => intro s e; simp [mergeTeamsAux, keepNonEmpty]
  | cons r rest ih =>
    intro s e
    by_cases hd : r.is_digest = true
    · simp [mergeTeamsAux, hd, keepNonEmpty]
    · by_cases hc : r.is_cm = true
      · simp [mergeTeamsAux, hd, hc, keepNonEmpty]
      · by_cases ht : r.team = ""
        · simp [mergeTeamsAux, hd, hc, ht, keepNonEmpty, ih]
        · simp [mergeTeamsAux, hd, hc, ht, keepNonEmpty]

theorem mergeTeamsAux_run :
    ∀ (segs : List Segment) (t : String) (s e : ℚ), t ≠ "" →
      keepNonEmpty (mergeTeamsAux (some (t, s, e)) segs)
        = (t, s, (extendRun t e segs).1)
            :: keepNonEmpty (mergeTeamsAux none (extendRun t e segs).2) := by
  intro segs
  induction segs with
  | nil => intro t s e ht; simp [mergeTeamsAux, extendRun, ht, keepNonEmpty]
  | cons r rest ih =>
    intro t s e ht
    by_cases hd : r.is_digest = true
    · simp [mergeTeamsAux, extendRun, hd, ht, keepNonEmpty]
    · by_cases hc : r.is_cm = true
      · simp [mergeTeamsAux, extendRun, hd, hc, ht, keepNonEmpty]
      · by_cases hteq : r.team = t
        · simpa [mergeTeamsAux, extendRun, hd, hc, hteq, ht, keepNonEmpty]
            using ih t s r.stop ht
        · simp [mergeTeamsAux, extendRun, hd, hc, hteq, ht, keepNonEmpty]

theorem mergeTeams_runs_aux :
    ∀ (n : ℕ) (segs : List Segment), segs.length ≤ n →
      keepNonEmpty (mergeTeamsAux none segs) = teamRunsSpec segs := by
  intro n
  induction n with
  | zero =>
    intro segs h
    have : segs = [] := List.length_eq_zero.mp (Nat.le_zero.mp h)
    subst this
    simp [mergeTeamsAux, teamRunsSpec, keepNonEmpty]
  | succ n ih =>
    intro segs h
    cases segs with
    | nil => simp [mergeTeamsAux, teamRunsSpec, keepNonEmpty]
    | cons r rest =>
      have hr : rest.length ≤ n := Nat.le_of_succ_le_succ (by simpa using h)
      by_cases hd : r.is_digest = true
      · rw [teamRunsSpec, if_pos (Or.inl hd)]
        rw [show mergeTeamsAux none (r :: rest) = mergeTeamsAux none rest by
          simp [mergeTeamsAux, hd]]
        exact ih rest hr
      · by_cases hc : r.is_cm = true
        · rw [teamRunsSpec, if_pos (Or.inr (Or.inl hc))]
          rw [show mergeTeamsAux none (r :: rest) = mergeTeamsAux none rest by
            simp [mergeTeamsAux, hd, hc]]
          exact ih rest hr
        · have hopen :
              mergeTeamsAux none (r :: rest)
                = mergeTeamsAux (some (r.team, r.start, r.stop)) rest := by
            simp [mergeTeamsAux, hd, hc]
          by_cases ht : r.team = ""
          · rw [teamRunsSpec, if_pos (Or.inr (Or.inr ht))]
            rw [hopen, ht, mergeTeamsAux_blank, ih rest hr]
          · have hcond : ¬(r.is_digest = true ∨ r.is_cm = true ∨ r.team = "") := by
              simp [hd, hc, ht]
            rw [teamRunsSpec, if_neg hcond]
            rw [hopen, mergeTeamsAux_run rest r.team r.start r.stop ht]
            have hlen : (extendRun r.team r.stop rest).2.length ≤ n :=
              le_trans (extendRun_length_le r.team r.stop rest) hr
            rw [ih _ hlen]

/-- C2: the team merge never drops a non-blank team run — the merged
output, restricted to non-empty team labels, is exactly the list of
maximal consecutive same-team, non-digest, non-commercial
sub-sequences, each appearing once as a single span from the start of
its first segment to the end of its last segment (`teamRunsSpec`,
written from the spec's words). -/
theorem mergeTeams_preserves_runs :
    ∀ segs : List Segment,
      keepNonEmpty (mergeTeams segs) = teamRunsSpec segs := by
  intro segs
  exact mergeTeams_runs_aux segs.length segs le_rfl

/-- A segment with neither flag, for concrete team-merge inputs. -/
def mkPlain (t : String) (s d : ℚ) : Segment :=
  ⟨d, t, "", "", s, s + d, false, false⟩

/-- C9 counterexample: the claim says the team merge closes and
appends any open run at sequence end, "including a run whose team
label is the empty string"; but `if cur_team:` (main.py:314) uses
Python truthiness, so a trailing empty-team run is dropped: one
non-digest, non-commercial segment with team "" merges to nothing. -/
theorem trailing_blank_run_dropped :
    mergeTeams [mkPlain "" 0 5] = [] ∧ (mkPlain "" 0 5).team = "" ∧
    (mkPlain "" 0 5).is_digest = false ∧ (mkPlain "" 0 5).is_cm = false := by
  refine ⟨?_, rfl, rfl, rfl⟩
  simp [mergeTeams, mergeTeamsAux, mkPlain]

/-- C9 amended: at sequence end the open run is appended iff its team
label is non-empty (Python truthiness of `cur_team`); an empty-team
run closed mid-sequence is retained internally in the merged output;
and blank-label spans are filtered out at labeling time (they produce
neither an inside label nor an outside-label request). -/
theorem end_close_and_blank_runs :
    (∀ (t : String) (s d : ℚ), t ≠ "" →
      mergeTeams [mkPlain t s d] = [(t, s, s + d)]) ∧
    (∀ s d : ℚ, mergeTeams [mkPlain "" s d] = []) ∧
    (∀ (s d s2 d2 : ℚ) (t : String), t ≠ "" →
      mergeTeams [mkPlain "" s d, mkPlain t s2 d2]
        = [("", s, s + d), (t, s2, s2 + d2)]) ∧
    (∀ (tw : String → ℚ) (spp : ℚ) (team : String) (s e : ℚ),
      isBlank team = true → labelActions tw spp [(team, s, e)] = ([], [])) := by
  refine ⟨?_, ?_, ?_, ?_⟩ <;> intros <;>
    simp [mergeTeams, mergeTeamsAux, mkPlain, labelActions, *]

theorem end_close_and_blank_runs_witness :
    mergeTeams [mkPlain "A" 0 5] = [("A", 0, (0:ℚ) + 5)] ∧
    mergeTeams [mkPlain "" 0 5, mkPlain "A" 5 3]
      = [("", 0, (0:ℚ) + 5), ("A", 5, (5:ℚ) + 3)] ∧
    labelActions (fun _ => 100) 1 [(" ", 0, 5)] = ([], []) :=
  ⟨end_close_and_blank_runs.1 "A" 0 5 (by decide),
   end_close_and_blank_runs.2.2.1 0 5 5 3 "A" (by decide),
   end_close_and_blank_runs.2.2.2 (fun _ => 100) 1 " " 0 5 (by decide)⟩

/-! ## Layout lemmas: every queued label is placed -/

theorem placeBand_label_map (xmin xmax : ℚ) :
    ∀ (items : List OutsideItem) (lanes : List ℚ),
      ((placeBand xmin xmax lanes items).2).map Placement.label
        = items.map OutsideItem.label := by
  intro items
  induction items with
  | nil => intro lanes; simp [placeBand]
  | cons d rest ih =>
    intro lanes
    simp only [placeBand]
    split
    · simp [ih]
    · simp [ih]

theorem placeBand_length (xmin xmax : ℚ) (items : List OutsideItem)
    (lanes : List ℚ) :
    ((placeBand xmin xmax lanes items).2).length = items.length := by
  have h := congrArg List.length (placeBand_label_map xmin xmax items lanes)
  simpa using h

theorem splitAlt_perm :
    ∀ l : List OutsideItem, ((splitAlt l).1 ++ (splitAlt l).2).Perm l := by
  intro l
  induction l with
  | nil => simp [splitAlt]
  | cons d rest ih =>
    simp only [splitAlt, List.cons_append]
    exact ((List.perm_append_comm.trans ih).cons d)

/-- C3: the lane-assignment layout places every queued outside label:
`place_band` produces exactly one placement per request (same labels,
in order), and the whole per-row layout (sort, alternate split into
bands, place both bands) emits placements whose labels are a
permutation of the queued labels — the procedure is total and has no
rejection path, whatever the requests and margins. -/
theorem layout_places_every_label :
    (∀ (xmin xmax : ℚ) (lanes : List ℚ) (items : List OutsideItem),
      ((placeBand xmin xmax lanes items).2).map Placement.label
        = items.map OutsideItem.label) ∧
    (∀ (xmin xmax : ℚ) (items : List OutsideItem),
      ((rowLayout xmin xmax items).map Placement.label).Perm
        (items.map OutsideItem.label)) := by
  constructor
  · intro xmin xmax lanes items
    exact placeBand_label_map xmin xmax items lanes
  · intro xmin xmax items
    unfold rowLayout
    rw [List.map_append, placeBand_label_map, placeBand_label_map,
      ← List.map_append]
    exact ((splitAlt_perm _).map OutsideItem.label).trans
      ((List.mergeSort_perm items _).map OutsideItem.label)

/-! ## Label-fit decision -/

/-- C8: a merged span's label is drawn inside the bar iff the span
length strictly exceeds `need_sec` of the label (rendered text width
times seconds-per-pixel, plus the fixed padding 6); otherwise it is
queued as an outside-label request; since `need_sec` is at least 6
whenever the text metric and scale are nonnegative, a 5-second span
is always queued and never drawn inside. -/
theorem label_fit_decision :
    ∀ (tw : String → ℚ) (spp : ℚ) (team : String) (s e : ℚ),
      isBlank team = false →
      (labelActions tw spp [(team, s, e)]
          = ([⟨team, (s + e) / 2⟩], []) ↔ e - s > needSec tw spp team) ∧
      (¬ e - s > needSec tw spp team →
        labelActions tw spp [(team, s, e)]
          = ([], [⟨team, (s + e) / 2, e + 6, needSec tw spp team, none⟩])) ∧
      (0 ≤ tw team → 0 ≤ spp → e - s = 5 →
        labelActions tw spp [(team, s, e)]
          = ([], [⟨team, (s + e) / 2, e + 6, needSec tw spp team, none⟩])) := by
  intro tw spp team s e hb
  have hout : ∀ _h : ¬ e - s > needSec tw spp team,
      labelActions tw spp [(team, s, e)]
        = ([], [⟨team, (s + e) / 2, e + 6, needSec tw spp team, none⟩]) := by
    intro h
    simp [labelActions, hb, h]
  have hsmall : 0 ≤ tw team → 0 ≤ spp → e - s = 5 →
      ¬ e - s > needSec tw spp team := by
    intro h1 h2 h3
    have hmul : 0 ≤ tw team * spp := mul_nonneg h1 h2
    simp only [needSec, not_lt, h3]
    linarith
  refine ⟨?_, hout, fun h1 h2 h3 => hout (hsmall h1 h2 h3)⟩
  constructor
  · intro hres
    by_contra h
    rw [hout h] at hres
    simp at hres
  · intro h
    simp [labelActions, hb, h]

theorem label_fit_decision_witness :
    isBlank "ABCDEFGHIJKLMNOPQRST" = false ∧
    labelActions (fun _ => 100) 1 [("ABCDEFGHIJKLMNOPQRST", 0, 5)]
      = ([], [⟨"ABCDEFGHIJKLMNOPQRST", ((0:ℚ) + 5) / 2, (5:ℚ) + 6,
          needSec (fun _ => 100) 1 "ABCDEFGHIJKLMNOPQRST", none⟩]) :=
  ⟨by decide,
    (label_fit_decision (fun _ => 100) 1 "ABCDEFGHIJKLMNOPQRST" 0 5
        (by decide)).2.2 (by norm_num) (by norm_num) (by norm_num)⟩

/-! ## Layout lemmas: no overlap within a lane -/

theorem findLane_some :
    ∀ (lanes : List ℚ) (x0 w xmax : ℚ) (i : ℕ) (xt : ℚ),
      findLane x0 w xmax lanes = some (i, xt) →
      ∃ h : i < lanes.length,
        xt = max x0 (lanes.get ⟨i, h⟩ + 10) ∧ xt ≤ xmax - w - 12 := by
  intro lanes
  induction lanes with
  | nil => intro x0 w xmax i xt h; simp [findLane] at h
  | cons endx rest ih =>
    intro x0 w xmax i xt h
    rw [findLane] at h
    by_cases hfit : max x0 (endx + 10) ≤ xmax - w - 12
    · rw [if_pos hfit] at h
      obtain ⟨hi, hxt⟩ : 0 = i ∧ max x0 (endx + 10) = xt := by
        simpa using h
      subst hi
      exact ⟨Nat.succ_pos _, hxt.symm, hxt ▸ hfit⟩
    · rw [if_neg hfit] at h
      rcases Option.map_eq_some'.mp h with ⟨⟨j, y⟩, hj, heq⟩
      have hji : j + 1 = i := congrArg Prod.fst heq
      have hyx : y = xt := congrArg Prod.snd heq
      rcases ih x0 w xmax j y hj with ⟨hlt, hy, hle⟩
      subst hji
      subst hyx
      exact ⟨Nat.succ_lt_succ hlt, hy, hle⟩

theorem placeBand_lane_lower_bound (xmin xmax : ℚ) :
    ∀ (items : List OutsideItem) (lanes : List ℚ),
      (∀ d ∈ items, 0 ≤ d.width) →
      ∀ q ∈ (placeBand xmin xmax lanes items).2,
        ∀ (k : ℕ) (hk : k < lanes.length), q.lane = k →
          lanes.get ⟨k, hk⟩ + 10 ≤ q.x := by
  intro items
  induction items with
  | nil => intro lanes _ q hq; simp [placeBand] at hq
  | cons d rest ih =>
    intro lanes hw q hq k hk hlane
    have hw0 : 0 ≤ d.width := hw d (by simp)
    have hwrest : ∀ x ∈ rest, 0 ≤ x.width := fun x hx => hw x (by simp [hx])
    cases hf : findLane (max (xmin + 8) (min d.pref_x (xmax - d.width - 12)))
        d.width xmax lanes with
    | some p =>
      obtain ⟨i, xt⟩ := p
      rcases findLane_some lanes _ d.width xmax i xt hf with ⟨hlt, hxt, _⟩
      simp only [placeBand, hf] at hq
      rcases List.mem_cons.mp hq with rfl | hq'
      · have hk' : k = i := hlane.symm
        subst hk'
        have : lanes.get ⟨k, hk⟩ + 10 ≤ xt := by
          rw [hxt]
          have : lanes.get ⟨k, hlt⟩ = lanes.get ⟨k, hk⟩ := rfl
          rw [← this]
          exact le_max_right _ _
        simpa using this
      · have hk2 : k < (lanes.set i (xt + d.width)).length := by
          simpa using hk
        have hbound := ih (lanes.set i (xt + d.width)) hwrest q hq' k hk2 hlane
        have hmono : lanes.get ⟨k, hk⟩ ≤ (lanes.set i (xt + d.width)).get ⟨k, hk2⟩ := by
          by_cases hki : i = k
          · subst hki
            rw [List.get_eq_getElem, List.get_eq_getElem,
              List.getElem_set_self (by simpa using hk)]
            have : lanes[i] + 10 ≤ xt := by
              rw [hxt]
              exact le_max_right _ _
            have h10 : (0:ℚ) < 10 := by norm_num
            calc lanes[i] ≤ lanes[i] + 10 := by linarith
              _ ≤ xt := this
              _ ≤ xt + d.width := by linarith
          · rw [List.get_eq_getElem, List.get_eq_getElem,
              List.getElem_set_ne hki]
        linarith
    | none =>
      simp only [placeBand, hf] at hq
      rcases List.mem_cons.mp hq with rfl | hq'
      · exact absurd hlane.symm (by omega : ¬ k = lanes.length)
      · have hk2 : k < (lanes ++
            [max (xmin + 8) (min d.pref_x (xmax - d.width - 12)) + d.width]).length := by
          simp
          omega
        have hbound := ih _ hwrest q hq' k hk2 hlane
        have hsame : (lanes ++
            [max (xmin + 8) (min d.pref_x (xmax - d.width - 12)) + d.width]).get ⟨k, hk2⟩
              = lanes.get ⟨k, hk⟩ := by
          rw [List.get_eq_getElem, List.get_eq_getElem, List.getElem_append_left]
        rw [hsame] at hbound
        exact hbound

theorem placeBand_pairwise (xmin xmax : ℚ) :
    ∀ (items : List OutsideItem) (lanes : List ℚ),
      (∀ d ∈ items, 0 ≤ d.width) →
      ((placeBand xmin xmax lanes items).2).Pairwise
        (fun a b => a.lane = b.lane → a.x + a.width + 10 ≤ b.x) := by
  intro items
  induction items with
  | nil => intro lanes _; simp [placeBand]
  | cons d rest ih =>
    intro lanes hw
    have hwrest : ∀ x ∈ rest, 0 ≤ x.width := fun x hx => hw x (by simp [hx])
    cases hf : findLane (max (xmin + 8) (min d.pref_x (xmax - d.width - 12)))
        d.width xmax lanes with
    | some p =>
      obtain ⟨i, xt⟩ := p
      rcases findLane_some lanes _ d.width xmax i xt hf with ⟨hlt, _, _⟩
      simp only [placeBand, hf]
      refine List.Pairwise.cons ?_ (ih (lanes.set i (xt + d.width)) hwrest)
      intro b hb hlb
      have hk2 : i < (lanes.set i (xt + d.width)).length := by simpa using hlt
      have hbound := placeBand_lane_lower_bound xmin xmax rest
        (lanes.set i (xt + d.width)) hwrest b hb i hk2 hlb.symm
      have hval : (lanes.set i (xt + d.width)).get ⟨i, hk2⟩ = xt + d.width := by
        rw [List.get_eq_getElem, List.getElem_set_self (by simpa using hlt)]
      rw [hval] at hbound
      simpa using hbound
    | none =>
      simp only [placeBand, hf]
      refine List.Pairwise.cons ?_
        (ih (lanes ++ [max (xmin + 8) (min d.pref_x (xmax - d.width - 12))
          + d.width]) hwrest)
      intro b hb hlb
      have hk2 : lanes.length < (lanes ++
          [max (xmin + 8) (min d.pref_x (xmax - d.width - 12)) + d.width]).length := by
        simp
      have hbound := placeBand_lane_lower_bound xmin xmax rest _ hwrest b hb
        lanes.length hk2 hlb.symm
      have hval : (lanes ++
          [max (xmin + 8) (min d.pref_x (xmax - d.width - 12)) + d.width]).get
            ⟨lanes.length, hk2⟩
          = max (xmin + 8) (min d.pref_x (xmax - d.width - 12)) + d.width := by
        rw [List.get_eq_getElem]
        simp
      rw [hval] at hbound
      simpa using hbound

/-- C4: two labels placed by `place_band` in the same lane of a band
never overlap horizontally: when all queued widths are nonnegative (as
`need_sec` widths always are), the earlier-placed label's right edge
`x + width` plus the minimum gap 10 is at most the later-placed
label's left edge `x`. -/
theorem placeBand_same_lane_no_overlap :
    ∀ (xmin xmax : ℚ) (items : List OutsideItem),
      (∀ d ∈ items, 0 ≤ d.width) →
      ∀ (i j : ℕ) (a b : Placement),
        ((placeBand xmin xmax [] items).2)[i]? = some a →
        ((placeBand xmin xmax [] items).2)[j]? = some b →
        i < j → a.lane = b.lane → a.x + a.width + 10 ≤ b.x := by
  intro xmin xmax items hw i j a b ha hb hij hlane
  have hp := placeBand_pairwise xmin xmax items [] hw
  rcases List.getElem?_eq_some.mp ha with ⟨hia, hga⟩
  rcases List.getElem?_eq_some.mp hb with ⟨hjb, hgb⟩
  have hr := List.pairwise_iff_getElem.mp hp i j hia hjb hij
  rw [hga, hgb] at hr
  exact hr hlane

def c4items : List OutsideItem :=
  [⟨"p", 0, 0, 10, none⟩, ⟨"q", 0, 0, 10, none⟩]

theorem placeBand_same_lane_no_overlap_witness :
    ((placeBand 0 7200 [] c4items).2)[0]? = some ⟨"p", 8, 0, 10⟩ ∧
    ((placeBand 0 7200 [] c4items).2)[1]? = some ⟨"q", 28, 0, 10⟩ ∧
    (8:ℚ) + 10 + 10 ≤ 28 := by
  have hw : ∀ d ∈ c4items, (0:ℚ) ≤ d.width := by decide
  have hcomp : (placeBand 0 7200 [] c4items).2
      = [⟨"p", 8, 0, 10⟩, ⟨"q", 28, 0, 10⟩] := by
    norm_num [placeBand, findLane, c4items, max_def, min_def]
  refine ⟨by rw [hcomp]; rfl, by rw [hcomp]; rfl, ?_⟩
  exact placeBand_same_lane_no_overlap 0 7200 c4items hw 0 1
    ⟨"p", 8, 0, 10⟩ ⟨"q", 28, 0, 10⟩ (by rw [hcomp]; rfl) (by rw [hcomp]; rfl)
    (by norm_num) rfl

end Timeline
